import Mathlib

/-!
Verification of the `btc-stylus` hash engine: the contract method
`BtcVerifier::hash_btc_header` decodes a hex string to bytes, applies
SHA-256 twice (Bitcoin's "Hash256"), and re-encodes the final digest as
lowercase hex.  The embedding below models bytes and 32-bit words as `Nat`
with explicit `% 2^32` / `% 256` reductions where the Rust code wraps.
-/

set_option maxRecDepth 100000

namespace BtcStylus

/-- The 32-bit word modulus. -/
def M32 : Nat := 4294967296

/-- Right rotation of a 32-bit word (input assumed `< M32`). -/
def rotr (n x : Nat) : Nat := (x >>> n) ||| ((x <<< (32 - n)) % M32)

/-- SHA-256 `Ch(x,y,z) = (x ∧ y) ⊕ (¬x ∧ z)` on 32-bit words. -/
def ch (x y z : Nat) : Nat := (x &&& y) ^^^ ((x ^^^ 4294967295) &&& z)

/-- SHA-256 `Maj(x,y,z) = (x ∧ y) ⊕ (x ∧ z) ⊕ (y ∧ z)`. -/
def maj (x y z : Nat) : Nat := (x &&& y) ^^^ (x &&& z) ^^^ (y &&& z)

/-- SHA-256 `Σ₀`. -/
def bsig0 (x : Nat) : Nat := rotr 2 x ^^^ rotr 13 x ^^^ rotr 22 x

/-- SHA-256 `Σ₁`. -/
def bsig1 (x : Nat) : Nat := rotr 6 x ^^^ rotr 11 x ^^^ rotr 25 x

/-- SHA-256 `σ₀`. -/
def ssig0 (x : Nat) : Nat := rotr 7 x ^^^ rotr 18 x ^^^ (x >>> 3)

/-- SHA-256 `σ₁`. -/
def ssig1 (x : Nat) : Nat := rotr 17 x ^^^ rotr 19 x ^^^ (x >>> 10)

/-- The 64 SHA-256 round constants (FIPS 180-4 §4.2.2), written in decimal:
these are the usual `0x428a2f98, 0x71374491, …, 0xc67178f2`. -/
def K : List Nat :=
  [1116352408, 1899447441, 3049323471, 3921009573, 961987163,
   1508970993, 2453635748, 2870763221, 3624381080, 310598401,
   607225278, 1426881987, 1925078388, 2162078206, 2614888103,
   3248222580, 3835390401, 4022224774, 264347078, 604807628,
   770255983, 1249150122, 1555081692, 1996064986, 2554220882,
   2821834349, 2952996808, 3210313671, 3336571891, 3584528711,
   113926993, 338241895, 666307205, 773529912, 1294757372,
   1396182291, 1695183700, 1986661051, 2177026350, 2456956037,
   2730485921, 2820302411, 3259730800, 3345764771, 3516065817,
   3600352804, 4094571909, 275423344, 430227734, 506948616,
   659060556, 883997877, 958139571, 1322822218, 1537002063,
   1747873779, 1955562222, 2024104815, 2227730452, 2361852424,
   2428436474, 2756734187, 3204031479, 3329325298]

/-- The eight-word SHA-256 working state / chaining value. -/
structure Hash8 where
  a : Nat
  b : Nat
  c : Nat
  d : Nat
  e : Nat
  f : Nat
  g : Nat
  h : Nat

/-- The SHA-256 initial hash value (FIPS 180-4 §5.3.3), in decimal: the
usual `0x6a09e667 … 0x5be0cd19`. -/
def initState : Hash8 :=
  ⟨1779033703, 3144134277, 1013904242, 2773480762,
   1359893119, 2600822924, 528734635, 1541459225⟩

/-- Zero-byte count for SHA-256 padding of an `len`-byte message. -/
def padZeroCount (len : Nat) : Nat := (64 - ((len + 9) % 64)) % 64

/-- Big-endian 8-byte rendering of the 64-bit message bit length. -/
def lenBytes64 (n : Nat) : List Nat :=
  [(n >>> 56) % 256, (n >>> 48) % 256, (n >>> 40) % 256, (n >>> 32) % 256,
   (n >>> 24) % 256, (n >>> 16) % 256, (n >>> 8) % 256, n % 256]

/-- SHA-256 padding (FIPS 180-4 §5.1.1): `0x80`, zero fill, 64-bit big-endian bit length. -/
def pad (msg : List Nat) : List Nat :=
  msg ++ 128 :: (List.replicate (padZeroCount msg.length) 0 ++ lenBytes64 (8 * msg.length))

/-- Big-endian packing of bytes into 32-bit words. -/
def wordsOfBytes : List Nat → List Nat
  | b0 :: b1 :: b2 :: b3 :: rest =>
    ((b0 <<< 24) ||| (b1 <<< 16) ||| (b2 <<< 8) ||| b3) :: wordsOfBytes rest
  | _ => []

/-- Split a byte list into 64-byte blocks; the structural fuel is an upper
bound on the block count, so it never runs out when started at `l.length`. -/
def toBlocksAux : Nat → List Nat → List (List Nat)
  | 0, _ => []
  | _, [] => []
  | fuel + 1, x :: rest => ((x :: rest).take 64) :: toBlocksAux fuel (rest.drop 63)

/-- Split a byte list into 64-byte blocks. -/
def toBlocks (l : List Nat) : List (List Nat) := toBlocksAux l.length l

/-- Extend the 16-word message schedule by `n` further words (FIPS 180-4 §6.2.2 step 1). -/
def extendSchedule : Nat → Array Nat → Array Nat
  | 0, w => w
  | n + 1, w =>
    let i := w.size
    extendSchedule n
      (w.push ((ssig1 (w.getD (i - 2) 0) + w.getD (i - 7) 0 +
                ssig0 (w.getD (i - 15) 0) + w.getD (i - 16) 0) % M32))

/-- One SHA-256 compression round for round constant / schedule word pair `kw`. -/
def roundStep (kw : Nat × Nat) (s : Hash8) : Hash8 :=
  let t1 := (s.h + bsig1 s.e + ch s.e s.f s.g + kw.1 + kw.2) % M32
  let t2 := (bsig0 s.a + maj s.a s.b s.c) % M32
  ⟨(t1 + t2) % M32, s.a, s.b, s.c, (s.d + t1) % M32, s.e, s.f, s.g⟩

/-- Process one 64-byte block: 64 rounds, then add into the chaining value. -/
def compressBlock (st : Hash8) (block : List Nat) : Hash8 :=
  let w := extendSchedule 48 (Array.mk (wordsOfBytes block))
  let s := (K.zip w.toList).foldl (fun s kw => roundStep kw s) st
  ⟨(st.a + s.a) % M32, (st.b + s.b) % M32, (st.c + s.c) % M32, (st.d + s.d) % M32,
   (st.e + s.e) % M32, (st.f + s.f) % M32, (st.g + s.g) % M32, (st.h + s.h) % M32⟩

/-- Big-endian 4-byte rendering of a 32-bit word. -/
def wordBE (x : Nat) : List Nat :=
  [(x >>> 24) % 256, (x >>> 16) % 256, (x >>> 8) % 256, x % 256]

/-- SHA-256 of a byte sequence, as its 32 digest bytes in emission order. -/
def sha256 (msg : List Nat) : List Nat :=
  let st := (toBlocks (pad msg)).foldl compressBlock initState
  wordBE st.a ++ wordBE st.b ++ wordBE st.c ++ wordBE st.d ++
  wordBE st.e ++ wordBE st.f ++ wordBE st.g ++ wordBE st.h

/-- Value of one hex digit character, per the `hex` crate's `val` table:
`0-9`, then `a-f`, then `A-F`; anything else is an invalid-character error. -/
def hexVal (c : Char) : Option Nat :=
  if 48 ≤ c.toNat ∧ c.toNat ≤ 57 then some (c.toNat - 48)
  else if 97 ≤ c.toNat ∧ c.toNat ≤ 102 then some (c.toNat - 87)
  else if 65 ≤ c.toNat ∧ c.toNat ≤ 70 then some (c.toNat - 55)
  else none

/-- `hex::decode`: fails on odd length or any invalid digit, else pairs of
digits become bytes, most-significant nibble first. -/
def hexDecode : List Char → Option (List Nat)
  | [] => some []
  | [_] => none
  | a :: b :: rest =>
    match hexVal a, hexVal b, hexDecode rest with
    | some hi, some lo, some tl => some ((16 * hi + lo) :: tl)
    | _, _, _ => none

/-- Lowercase hex digit character for a nibble, per the `hex` crate's lowercase table. -/
def hexDigitChar (n : Nat) : Char := Char.ofNat (if n < 10 then 48 + n else 87 + n)

/-- `hex::encode` of one byte: high nibble then low nibble, lowercase. -/
def encodeByte (b : Nat) : List Char := [hexDigitChar ((b >>> 4) % 16), hexDigitChar (b % 16)]

/-- `hex::encode` of a byte sequence. -/
def hexEncode (bs : List Nat) : List Char := bs.flatMap encodeByte

/-- `BtcVerifier::hash_btc_header`: decode the hex argument (mapping any
decode error to an empty `Vec<u8>` payload), double-SHA256 the bytes, and
return the lowercase hex rendering of the final digest. -/
def hash_btc_header (header_hex : String) : Except (List Nat) String :=
  match hexDecode header_hex.data with
  | none => Except.error []
  | some bytes => Except.ok (String.mk (hexEncode (sha256 (sha256 bytes))))

/-- A character in the spec's HexString alphabet `[0-9a-fA-F]`. -/
def isHexDigit (c : Char) : Prop :=
  (48 ≤ c.toNat ∧ c.toNat ≤ 57) ∨ (97 ≤ c.toNat ∧ c.toNat ≤ 102) ∨
    (65 ≤ c.toNat ∧ c.toNat ≤ 70)

instance (c : Char) : Decidable (isHexDigit c) := by unfold isHexDigit; infer_instance

/-- A lowercase hex digit `[0-9a-f]`, for the output-shape claims. -/
def isLowerHexDigit (c : Char) : Prop :=
  (48 ≤ c.toNat ∧ c.toNat ≤ 57) ∨ (97 ≤ c.toNat ∧ c.toNat ≤ 102)

instance (c : Char) : Decidable (isLowerHexDigit c) := by unfold isLowerHexDigit; infer_instance

/-- Modelled from the spec for the refinement claim: the numeric value of one
hex digit, drawn from `[0-9a-fA-F]` (junk value 0 outside that alphabet). -/
def specDigitVal (c : Char) : Nat :=
  if 48 ≤ c.toNat ∧ c.toNat ≤ 57 then c.toNat - 48
  else if 97 ≤ c.toNat ∧ c.toNat ≤ 102 then c.toNat - 87
  else if 65 ≤ c.toNat ∧ c.toNat ≤ 70 then c.toNat - 55
  else 0

/-- Modelled from the spec for the refinement claim: interpret each
consecutive pair of hex characters as one byte, most-significant nibble
first. -/
def specDecode : List Char → List Nat
  | a :: b :: rest => (16 * specDigitVal a + specDigitVal b) :: specDecode rest
  | _ => []

theorem hexVal_of_isHexDigit (c : Char) (h : isHexDigit c) :
    hexVal c = some (specDigitVal c) := by
  unfold isHexDigit at h
  unfold hexVal specDigitVal
  split_ifs <;> first | rfl | (exfalso; omega)

theorem isHexDigit_of_hexVal (c : Char) (v : Nat) (h : hexVal c = some v) :
    isHexDigit c := by
  unfold hexVal at h
  unfold isHexDigit
  split_ifs at h <;> omega

/-- Induction along the two-characters-at-a-time recursion of `hexDecode`. -/
theorem twoStepInduction {motive : List Char → Prop} (h0 : motive [])
    (h1 : ∀ a, motive [a])
    (h2 : ∀ a b rest, motive rest → motive (a :: b :: rest)) :
    ∀ l, motive l
  | [] => h0
  | [a] => h1 a
  | a :: b :: rest => h2 a b rest (twoStepInduction h0 h1 h2 rest)

theorem hexDecode_valid (l : List Char) (hlen : l.length % 2 = 0)
    (hdig : ∀ c ∈ l, isHexDigit c) : hexDecode l = some (specDecode l) := by
  induction l using twoStepInduction with
  | h0 => rfl
  | h1 a => simp at hlen
  | h2 a b rest ih =>
    simp only [List.length_cons] at hlen
    simp only [List.mem_cons, forall_eq_or_imp] at hdig
    obtain ⟨ha, hb, hrest⟩ := hdig
    simp only [hexDecode, hexVal_of_isHexDigit a ha, hexVal_of_isHexDigit b hb,
      ih (by omega) hrest, specDecode]

theorem hexDecode_some_valid (l : List Char) (h : (hexDecode l).isSome) :
    l.length % 2 = 0 ∧ ∀ c ∈ l, isHexDigit c := by
  induction l using twoStepInduction with
  | h0 => simp
  | h1 a => simp [hexDecode] at h
  | h2 a b rest ih =>
    rcases ha : hexVal a with _ | hi <;> rcases hb : hexVal b with _ | lo <;>
      rcases hr : hexDecode rest with _ | tl <;>
      simp only [hexDecode, ha, hb, hr, Option.isSome_none, Option.isSome_some,
        Bool.false_eq_true] at h
    obtain ⟨hl, hd⟩ := ih (by simp [hr])
    refine ⟨by simp [Nat.add_mod, hl], ?_⟩
    simp only [List.mem_cons, forall_eq_or_imp]
    exact ⟨isHexDigit_of_hexVal a hi ha, isHexDigit_of_hexVal b lo hb, hd⟩

theorem sha256_length (msg : List Nat) : (sha256 msg).length = 32 := by
  simp [sha256, wordBE]

theorem sha256_bytes_lt (msg : List Nat) : ∀ x ∈ sha256 msg, x < 256 := by
  intro x hx
  simp only [sha256, wordBE, List.mem_append, List.mem_cons, List.not_mem_nil,
    or_false] at hx
  omega

theorem hexEncode_length (bs : List Nat) : (hexEncode bs).length = 2 * bs.length := by
  induction bs with
  | nil => rfl
  | cons b bs ih =>
    simp only [hexEncode, List.flatMap_cons, List.length_append, List.length_cons] at *
    simp [encodeByte, ih]
    omega

theorem hexDigitChar_lower : ∀ n, n < 16 → isLowerHexDigit (hexDigitChar n) := by decide

theorem hexEncode_chars (bs : List Nat) : ∀ c ∈ hexEncode bs, isLowerHexDigit c := by
  intro c hc
  simp only [hexEncode, List.mem_flatMap, encodeByte, List.mem_cons,
    List.not_mem_nil, or_false] at hc
  obtain ⟨b, _, hc⟩ := hc
  rcases hc with rfl | rfl
  · exact hexDigitChar_lower _ (Nat.mod_lt _ (by norm_num))
  · exact hexDigitChar_lower _ (Nat.mod_lt _ (by norm_num))

/-- Two characters that are equal up to flipping a hex letter between its
lowercase and uppercase forms. -/
def hexCaseRel (a b : Char) : Prop :=
  a.toNat = b.toNat ∨
    (97 ≤ a.toNat ∧ a.toNat ≤ 102 ∧ a.toNat = b.toNat + 32) ∨
    (97 ≤ b.toNat ∧ b.toNat ≤ 102 ∧ b.toNat = a.toNat + 32)

instance (a b : Char) : Decidable (hexCaseRel a b) := by unfold hexCaseRel; infer_instance

theorem hexVal_caseRel {a b : Char} (h : hexCaseRel a b) : hexVal a = hexVal b := by
  unfold hexCaseRel at h
  unfold hexVal
  split_ifs <;>
    first
    | rfl
    | (simp only [Option.some.injEq]; omega)
    | (exfalso; omega)

theorem map_hexVal_of_forall₂ {l₁ l₂ : List Char}
    (h : List.Forall₂ hexCaseRel l₁ l₂) : l₁.map hexVal = l₂.map hexVal := by
  induction h with
  | nil => rfl
  | cons hab _ ih => simp [List.map_cons, hexVal_caseRel hab, ih]

theorem hexDecode_congr : ∀ l₁ l₂ : List Char,
    l₁.map hexVal = l₂.map hexVal → hexDecode l₁ = hexDecode l₂ := by
  intro l₁
  induction l₁ using twoStepInduction with
  | h0 =>
    intro l₂ h
    cases l₂ with
    | nil => rfl
    | cons x xs => simp at h
  | h1 a =>
    intro l₂ h
    cases l₂ with
    | nil => simp at h
    | cons x xs =>
      cases xs with
      | nil => rfl
      | cons y ys => simp at h
  | h2 a b rest ih =>
    intro l₂ h
    cases l₂ with
    | nil => simp at h
    | cons x xs =>
      cases xs with
      | nil => simp at h
      | cons y ys =>
        simp only [List.map_cons, List.cons.injEq] at h
        obtain ⟨h1, h2, h3⟩ := h
        simp only [hexDecode, h1, h2, ih ys h3]

/-- Claim C1: for every valid hexadecimal input (even length, all characters
in `0-9a-fA-F`), `hash_btc_header` returns `Ok` of the hexadecimal encoding
of `SHA256(SHA256(decode(input)))`, where `decode` pairs hex characters into
bytes most-significant nibble first, the second SHA-256 runs on the raw 32
bytes of the first digest, and the output byte order is preserved. -/
theorem hash_btc_header_valid_spec (s : String) (hlen : s.data.length % 2 = 0)
    (hdig : ∀ c ∈ s.data, isHexDigit c) :
    hash_btc_header s =
      Except.ok (String.mk (hexEncode (sha256 (sha256 (specDecode s.data))))) := by
  unfold hash_btc_header
  rw [hexDecode_valid s.data hlen hdig]

theorem hash_btc_header_valid_spec_witness :
    hash_btc_header "68656c6c6f" =
      Except.ok (String.mk (hexEncode (sha256 (sha256 (specDecode "68656c6c6f".data))))) :=
  hash_btc_header_valid_spec "68656c6c6f" (by decide) (by decide)

/-- Claim C2: `hash_btc_header "68656c6c6f"` returns `Ok` of the double-SHA256
hex digest of the ASCII bytes of `"hello"`. -/
theorem hash_btc_header_hello :
    hash_btc_header "68656c6c6f" =
      Except.ok "9595c9df90075148eb06860365df33584b75bff782a510c6cd4883a419833d50" := by
  have h1 : hexDecode "68656c6c6f".data = some [104, 101, 108, 108, 111] := by decide
  unfold hash_btc_header
  rw [h1]
  exact congrArg Except.ok (String.ext (by decide))

/-- Claim C3: `hash_btc_header` succeeds exactly on even-length all-hex-digit
inputs; `"abc"` (odd length) and `"zz"` (invalid characters) fail with the
decode error, and every successfully decoded input yields `Ok`. -/
theorem hash_btc_header_ok_iff :
    (∀ s : String, (∃ out, hash_btc_header s = Except.ok out) ↔
        (s.data.length % 2 = 0 ∧ ∀ c ∈ s.data, isHexDigit c)) ∧
      hash_btc_header "abc" = Except.error [] ∧
      hash_btc_header "zz" = Except.error [] := by
  refine ⟨fun s => ⟨?_, ?_⟩, rfl, rfl⟩
  · rintro ⟨out, hout⟩
    unfold hash_btc_header at hout
    cases hd : hexDecode s.data with
    | none => rw [hd] at hout; exact absurd hout (by simp)
    | some bytes => exact hexDecode_some_valid s.data (by simp [hd])
  · rintro ⟨h1, h2⟩
    exact ⟨_, by unfold hash_btc_header; rw [hexDecode_valid s.data h1 h2]⟩

theorem hash_btc_header_ok_iff_witness :
    ∃ out, hash_btc_header "68656c6c6f" = Except.ok out :=
  (hash_btc_header_ok_iff.1 "68656c6c6f").2 (by decide)

/-- Claim C4: `hash_btc_header ""` succeeds and returns the 64-character hex
digest of the double-SHA256 of the empty byte sequence. -/
theorem hash_btc_header_empty :
    hash_btc_header "" =
        Except.ok "5df6e0e2761359d30a8275058e299fcc0381534545f55cf43e41983f5d4c9456" ∧
      hash_btc_header "" = Except.ok (String.mk (hexEncode (sha256 (sha256 [])))) ∧
      (String.mk (hexEncode (sha256 (sha256 [])))).length = 64 := by
  have h1 : hexDecode "".data = some [] := by decide
  have h2 : hash_btc_header "" = Except.ok (String.mk (hexEncode (sha256 (sha256 [])))) := by
    unfold hash_btc_header
    rw [h1]
  refine ⟨?_, h2, ?_⟩
  · rw [h2]
    exact congrArg Except.ok (String.ext (by decide))
  · show (hexEncode (sha256 (sha256 []))).length = 64
    rw [hexEncode_length, sha256_length]

/-- Claim C5: every successful result of `hash_btc_header` is a 64-character
string of lowercase hex digits. -/
theorem hash_btc_header_output_shape (s : String) (out : String)
    (hok : hash_btc_header s = Except.ok out) :
    out.length = 64 ∧ ∀ c ∈ out.data, isLowerHexDigit c := by
  unfold hash_btc_header at hok
  cases hd : hexDecode s.data with
  | none => rw [hd] at hok; exact absurd hok (by simp)
  | some bytes =>
    rw [hd] at hok
    simp only [Except.ok.injEq] at hok
    subst hok
    constructor
    · show (hexEncode (sha256 (sha256 bytes))).length = 64
      rw [hexEncode_length, sha256_length]
    · exact hexEncode_chars (sha256 (sha256 bytes))

theorem hash_btc_header_output_shape_witness :
    (String.mk (hexEncode (sha256 (sha256 [])))).length = 64 ∧
      ∀ c ∈ (String.mk (hexEncode (sha256 (sha256 [])))).data, isLowerHexDigit c :=
  hash_btc_header_output_shape "" (String.mk (hexEncode (sha256 (sha256 [])))) rfl

/-- Claim C6: `hash_btc_header` is case-insensitive on its input — flipping
any hex letters between uppercase and lowercase, position by position, does
not change the result. -/
theorem hash_btc_header_case_insensitive (s t : String)
    (h : List.Forall₂ hexCaseRel s.data t.data) :
    hash_btc_header s = hash_btc_header t := by
  unfold hash_btc_header
  rw [hexDecode_congr s.data t.data (map_hexVal_of_forall₂ h)]

theorem hash_btc_header_case_insensitive_witness :
    hash_btc_header "68656C6C6F" = hash_btc_header "68656c6c6f" :=
  hash_btc_header_case_insensitive "68656C6C6F" "68656c6c6f"
    (by
      refine .cons (by decide) (.cons (by decide) (.cons (by decide)
        (.cons (by decide) (.cons (by decide) (.cons (by decide)
        (.cons (by decide) (.cons (by decide) (.cons (by decide)
        (.cons (by decide) .nil))))))))))

/-- Claim C7: `hash_btc_header` is deterministic — it is a pure function of
its argument, so equal inputs give identical outputs. -/
theorem hash_btc_header_deterministic (h₁ h₂ : String) (hEq : h₁ = h₂) :
    hash_btc_header h₁ = hash_btc_header h₂ := by
  rw [hEq]

theorem hash_btc_header_deterministic_witness :
    hash_btc_header "68656c6c6f" = hash_btc_header "68656c6c6f" :=
  hash_btc_header_deterministic "68656c6c6f" "68656c6c6f" rfl

/-- Claim C8: the error payload crossing the boundary is always the empty
byte vector, and every malformed input produces exactly that payload — odd
length and invalid character are not distinguished. -/
theorem hash_btc_header_error_empty :
    (∀ (s : String) (e : List Nat), hash_btc_header s = Except.error e → e = []) ∧
      (∀ s : String, ¬(s.data.length % 2 = 0 ∧ ∀ c ∈ s.data, isHexDigit c) →
        hash_btc_header s = Except.error []) := by
  constructor
  · intro s e he
    unfold hash_btc_header at he
    cases hd : hexDecode s.data with
    | none => rw [hd] at he; simpa using he.symm
    | some bytes => rw [hd] at he; exact absurd he (by simp)
  · intro s hbad
    unfold hash_btc_header
    cases hd : hexDecode s.data with
    | none => rfl
    | some bytes => exact absurd (hexDecode_some_valid s.data (by simp [hd])) hbad

theorem hash_btc_header_error_empty_witness :
    hash_btc_header "zz" = Except.error [] :=
  hash_btc_header_error_empty.2 "zz" (by decide)

theorem hexVal_hexDigitChar : ∀ n, n < 16 → hexVal (hexDigitChar n) = some n := by decide

/-- Claim C9: the hex codec round-trips — decoding the encoding of any byte
sequence returns exactly that sequence. -/
theorem hex_roundtrip (bs : List Nat) (hb : ∀ b ∈ bs, b < 256) :
    hexDecode (hexEncode bs) = some bs := by
  induction bs with
  | nil => rfl
  | cons b bs ih =>
    simp only [List.mem_cons, forall_eq_or_imp] at hb
    obtain ⟨hb0, hbs⟩ := hb
    have hhi : (b >>> 4) % 16 < 16 := Nat.mod_lt _ (by norm_num)
    have hlo : b % 16 < 16 := Nat.mod_lt _ (by norm_num)
    have hstep : hexEncode (b :: bs) =
        hexDigitChar ((b >>> 4) % 16) :: hexDigitChar (b % 16) :: hexEncode bs := by
      simp [hexEncode, encodeByte]
    rw [hstep]
    simp only [hexDecode, hexVal_hexDigitChar _ hhi, hexVal_hexDigitChar _ hlo, ih hbs]
    have hdiv : b >>> 4 = b / 16 := Nat.shiftRight_eq_div_pow b 4
    simp only [Option.some.injEq, List.cons.injEq]
    exact ⟨by omega, trivial⟩

theorem hex_roundtrip_witness : hexDecode (hexEncode [0, 171, 255]) = some [0, 171, 255] :=
  hex_roundtrip [0, 171, 255] (by decide)

/-- Claim C10: `hash_btc_header` is total — on every input string it
terminates with either `Ok` or the empty-payload error, never anything
else. -/
theorem hash_btc_header_total (s : String) :
    (∃ out, hash_btc_header s = Except.ok out) ∨
      hash_btc_header s = Except.error [] := by
  unfold hash_btc_header
  cases hexDecode s.data with
  | none => exact Or.inr rfl
  | some bytes => exact Or.inl ⟨_, rfl⟩

end BtcStylus
